import Mathlib

/-!
# Verification of the duplicate-file scanner and merge algorithm

Shallow embedding of `src/dupe.rs` (the `Scanner` type with its `add`,
`scan_dir`, `flush`, `dedupe` and `dupes` operations).  Filesystem effects
are made explicit: every fallible filesystem operation consults an oracle
`Nat → Option IoErr` (the value is the error produced by the n-th fallible
call, `none` meaning success), and the operations attempted are collected in
a trace.  Paths are lists of components; a Rust panic (a failed `assert_ne!`
or an `expect`) is modelled by the result `none` of an `Option`.
-/

namespace DupeKriller

/-- Paths are modelled as their list of components, mirroring `PathBuf`. -/
abbrev Path := List String

/-- Stand-in for `io::Error`: the concrete error payload is irrelevant. -/
abbrev IoErr := Nat

/-- Maximum value of `u64`/`usize` (the scanner targets 64-bit systems). -/
def UMAX : Nat := 2 ^ 64 - 1

/-- Modelled from the spec: `FileSet` lives in `file.rs`, which is not part
of the sources; per the spec it owns a growable ordered collection of paths
plus the OS-reported hardlink count at the time the set was first created
(`links` is recorded once at creation and not kept live-updated). -/
structure FileSet where
  paths : List Path
  links : Nat
deriving Repr, DecidableEq

/-- Modelled from the spec: `FileSet::new(path, links)` seeds the set with
one path and records the creation-time hardlink count. -/
def FileSet.new (p : Path) (links : Nat) : FileSet := ⟨[p], links⟩

/-- Modelled from the spec: `FileSet::push` appends a newly observed path;
the hardlink count stays the value recorded at creation. -/
def FileSet.push (fs : FileSet) (p : Path) (_links : Nat) : FileSet :=
  { fs with paths := fs.paths ++ [p] }

/-- The `Stats` counters of `dupe.rs`. -/
structure Stats where
  added : Nat
  skipped : Nat
  dupes : Nat
  hardlinks : Nat
deriving Repr, DecidableEq

/-- The `Settings` of `dupe.rs`. -/
structure Settings where
  ignore_small : Bool
  dry_run : Bool
deriving Repr, DecidableEq

/-- Listener callbacks observed during a run (`ScanListener`), with the
argument order of the Rust calls. -/
inductive Event where
  | fileScanned (path : Path) (stats : Stats)
  | duplicateFound (dupe : Path) (src : Path)
  | hardlinked (dupe : Path) (src : Path)
deriving Repr, DecidableEq

/-- Mutating filesystem operations attempted by the merge algorithm. -/
inductive FsOp where
  | hardLink (src tmp : Path)
  | rename (tmp dst : Path)
  | removeFile (p : Path)
deriving Repr, DecidableEq

/-! ## Anchor selection

`Scanner::dedupe` picks the anchor with
`filesets.iter().enumerate().max_by_key(|&(i,f)| (f.links(), !i))`.
`max_by_key` keeps the last element whose key is maximal; the key is the
pair (hardlink count, bitwise complement of the index), compared
lexicographically. -/

/-- The `max_by_key` key of `dedupe`: `(f.links(), !i)` with `!i` the
`usize` complement of the position. -/
def keyOf (e : Nat × FileSet) : Nat × Nat := (e.2.links, UMAX - e.1)

/-- Lexicographic order on keys, as Rust derives `Ord` for pairs. -/
def keyLE (a b : Nat × Nat) : Prop :=
  a.1 < b.1 ∨ (a.1 = b.1 ∧ a.2 ≤ b.2)

instance keyLE.dec (a b : Nat × Nat) : Decidable (keyLE a b) :=
  inferInstanceAs (Decidable (a.1 < b.1 ∨ (a.1 = b.1 ∧ a.2 ≤ b.2)))

theorem keyLE_refl (a : Nat × Nat) : keyLE a a := by
  unfold keyLE; omega

theorem keyLE_trans {a b c : Nat × Nat} (h₁ : keyLE a b) (h₂ : keyLE b c) :
    keyLE a c := by
  unfold keyLE at *; omega

theorem keyLE_total (a b : Nat × Nat) : keyLE a b ∨ keyLE b a := by
  unfold keyLE; omega

/-- `enumerate` starting at index `i`. -/
def enumFrom : Nat → List FileSet → List (Nat × FileSet)
  | _, [] => []
  | i, f :: rest => (i, f) :: enumFrom (i + 1) rest

theorem enumFrom_mem_iff :
    ∀ (fs : List FileSet) (i j : Nat) (g : FileSet),
      (j, g) ∈ enumFrom i fs ↔ (i ≤ j ∧ fs.get? (j - i) = some g) := by
  intro fs
  induction fs with
  | nil => intro i j g; simp [enumFrom]
  | cons f rest ih =>
    intro i j g
    simp only [enumFrom, List.mem_cons, Prod.mk.injEq, ih]
    constructor
    · rintro (⟨rfl, rfl⟩ | ⟨hij, hget⟩)
      · simp
      · refine ⟨by omega, ?_⟩
        have : j - i = (j - (i + 1)) + 1 := by omega
        rw [this]; simpa using hget
    · rintro ⟨hij, hget⟩
      rcases Nat.eq_or_lt_of_le hij with rfl | hlt
      · left; simp at hget; exact ⟨rfl, hget.symm⟩
      · right
        refine ⟨by omega, ?_⟩
        have : j - i = (j - (i + 1)) + 1 := by omega
        rw [this] at hget; simpa using hget

/-- The fold underlying `max_by_key`: the running best is replaced whenever
the new element's key is at least as large (Rust keeps the last maximum). -/
def selAux : List (Nat × FileSet) → (Nat × FileSet) → (Nat × FileSet)
  | [], best => best
  | e :: rest, best =>
      selAux rest (if keyLE (keyOf best) (keyOf e) then e else best)

/-- Anchor selection of `Scanner::dedupe`:
`filesets.iter().enumerate().max_by_key(|&(i,f)| (f.links(), !i))`;
`none` models the `expect` panic on an empty vector. -/
def selectAnchor (fs : List FileSet) : Option (Nat × FileSet) :=
  match enumFrom 0 fs with
  | [] => none
  | e :: rest => some (selAux rest e)

theorem selAux_spec (l : List (Nat × FileSet)) (best : Nat × FileSet) :
    (selAux l best = best ∨ selAux l best ∈ l) ∧
      (∀ e ∈ l, keyLE (keyOf e) (keyOf (selAux l best))) ∧
      keyLE (keyOf best) (keyOf (selAux l best)) := by
  induction l generalizing best with
  | nil => exact ⟨Or.inl rfl, by simp, keyLE_refl _⟩
  | cons e rest ih =>
    obtain ⟨hmem, hmax, hbest⟩ :=
      ih (if keyLE (keyOf best) (keyOf e) then e else best)
    refine ⟨?_, ?_, ?_⟩
    · rcases hmem with h | h
      · rw [selAux]
        by_cases hc : keyLE (keyOf best) (keyOf e)
        · rw [if_pos hc] at h ⊢; right; rw [h]; exact List.mem_cons_self _ _
        · rw [if_neg hc] at h ⊢; left; exact h
      · right; rw [selAux]; exact List.mem_cons_of_mem _ h
    · intro x hx
      rcases List.mem_cons.mp hx with rfl | hx
      · rw [selAux]
        by_cases hc : keyLE (keyOf best) (keyOf x)
        · rw [if_pos hc] at hbest ⊢; exact hbest
        · rw [if_neg hc] at hbest ⊢
          rcases keyLE_total (keyOf x) (keyOf best) with h | h
          · exact keyLE_trans h hbest
          · exact absurd h hc
      · rw [selAux]; exact hmax x hx
    · rw [selAux]
      by_cases hc : keyLE (keyOf best) (keyOf e)
      · rw [if_pos hc] at hbest ⊢; exact keyLE_trans hc hbest
      · rw [if_neg hc] at hbest ⊢; exact hbest

/-- Soundness of anchor selection: on a nonempty list the selected member
exists, is a member, and its key dominates every member's key. -/
theorem selectAnchor_sound (fs : List FileSet) (hne : fs ≠ []) :
    ∃ i f, selectAnchor fs = some (i, f) ∧ fs.get? i = some f ∧
      ∀ j g, fs.get? j = some g → keyLE (keyOf (j, g)) (keyOf (i, f)) := by
  cases fs with
  | nil => exact absurd rfl hne
  | cons f₀ rest =>
    obtain ⟨hmem, hmax, hbest⟩ := selAux_spec (enumFrom 1 rest) (0, f₀)
    set r := selAux (enumFrom 1 rest) (0, f₀) with hr
    refine ⟨r.1, r.2, ?_, ?_, ?_⟩
    · show selectAnchor (f₀ :: rest) = some (r.1, r.2)
      rfl
    · rcases hmem with h | h
      · rw [h]; rfl
      · have hmem' := (enumFrom_mem_iff rest 1 r.1 r.2).mp (by simpa using h)
        obtain ⟨h1, hget⟩ := hmem'
        have he : r.1 = (r.1 - 1) + 1 := by omega
        rw [he]
        simpa using hget
    · intro j g hjg
      cases j with
      | zero =>
        simp only [List.get?_cons_zero, Option.some.injEq] at hjg
        subst hjg
        exact hbest
      | succ k =>
        simp only [List.get?_cons_succ] at hjg
        have hmem' : (k + 1, g) ∈ enumFrom 1 rest :=
          (enumFrom_mem_iff rest 1 (k + 1) g).mpr ⟨by omega, by simpa using hjg⟩
        exact hmax _ hmem'

/-- Completeness of anchor selection: an index whose hardlink count is
maximal and which is earliest among the maximal ones is the selected one. -/
theorem selectAnchor_complete (fs : List FileSet)
    (hlen : fs.length ≤ UMAX + 1) (i : Nat) (f : FileSet)
    (hget : fs.get? i = some f)
    (hmax : ∀ j g, fs.get? j = some g → g.links ≤ f.links)
    (hearly : ∀ j g, fs.get? j = some g → g.links = f.links → i ≤ j) :
    selectAnchor fs = some (i, f) := by
  have hne : fs ≠ [] := by
    intro h; rw [h] at hget; simp at hget
  obtain ⟨i₀, f₀, hsel, hget₀, hdom⟩ := selectAnchor_sound fs hne
  obtain ⟨hi_lt, -⟩ := List.get?_eq_some.mp hget
  obtain ⟨hi₀_lt, -⟩ := List.get?_eq_some.mp hget₀
  have hk : keyLE (keyOf (i, f)) (keyOf (i₀, f₀)) := hdom i f hget
  have h₁ : f₀.links ≤ f.links := hmax i₀ f₀ hget₀
  have hflinks : f.links = f₀.links := by
    unfold keyLE keyOf at hk; simp at hk; omega
  have h₂ : i ≤ i₀ := hearly i₀ f₀ hget₀ hflinks.symm
  have h₃ : i₀ ≤ i := by
    unfold keyLE keyOf at hk; simp at hk
    rcases hk with h | ⟨-, h⟩
    · omega
    · omega
  have : i = i₀ := le_antisymm h₂ h₃
  subst this
  rw [hget] at hget₀
  rw [hsel]
  obtain rfl : f = f₀ := by injection hget₀
  rfl


/-! ## The merge algorithm (`Scanner::dedupe`)

The body of `dedupe` drains every non-anchor member of a content bucket and
folds its paths into the anchor, performing a hardlink-then-rename
replacement per path in live mode.  The merge state collects the paths
appended to the anchor, the listener events, the trace of attempted
filesystem operations, and the running count of fallible calls. -/

/-- The fixed temporary file name used by `dedupe`. -/
def tmpFileName : String := ".tmp-dupe-e1iIQcBFn5pC4MUSm-xkcd-221"

/-- `PathBuf::with_file_name`: replace the final component. -/
def withFileName (p : Path) (name : String) : Path := p.dropLast ++ [name]

/-- `dest_path.with_file_name(".tmp-dupe-…")`. -/
def tempPathOf (dest : Path) : Path := withFileName dest tmpFileName

/-- Mutable state threaded through one `dedupe` call. -/
structure MergeSt where
  merged : List Path
  events : List Event
  ops : List FsOp
  opIdx : Nat
deriving Repr, DecidableEq

/-- The body of `dedupe`'s inner `for dest_path in paths.drain(..)` loop for
one path.  `none` models the `assert_ne!(&source_path, &dest_path)` panic;
otherwise the state is returned together with the error of the first failing
filesystem call, if any (`fs::remove_file(temp_path).ok()` is attempted on
failure and its own result discarded). -/
def processPath (src : Path) (dryRun : Bool) (oracle : Nat → Option IoErr)
    (dest : Path) (st : MergeSt) : Option (MergeSt × Option IoErr) :=
  if src = dest then none
  else if dryRun then
    some ({ st with
            events := st.events ++ [Event.duplicateFound dest src],
            merged := st.merged ++ [dest] }, none)
  else
    let tmp := tempPathOf dest
    match oracle st.opIdx with
    | some e =>
        some ({ st with
                ops := st.ops ++ [FsOp.hardLink src tmp, FsOp.removeFile tmp],
                opIdx := st.opIdx + 1 }, some e)
    | none =>
      match oracle (st.opIdx + 1) with
      | some e =>
          some ({ st with
                  ops := st.ops ++ [FsOp.hardLink src tmp, FsOp.rename tmp dest,
                                    FsOp.removeFile tmp],
                  opIdx := st.opIdx + 2 }, some e)
      | none =>
          some ({ st with
                  ops := st.ops ++ [FsOp.hardLink src tmp, FsOp.rename tmp dest],
                  opIdx := st.opIdx + 2,
                  events := st.events ++ [Event.hardlinked dest src],
                  merged := st.merged ++ [dest] }, none)

/-- Draining one non-anchor member's path list, stopping at the first
error (the `return Err(err)` inside the loop). -/
def processSet (src : Path) (dryRun : Bool) (oracle : Nat → Option IoErr) :
    List Path → MergeSt → Option (MergeSt × Option IoErr)
  | [], st => some (st, none)
  | d :: ds, st =>
    match processPath src dryRun oracle d st with
    | none => none
    | some (st', some e) => some (st', some e)
    | some (st', none) => processSet src dryRun oracle ds st'

/-- The outer `for (i, set) in filesets.iter().enumerate()` loop of
`dedupe`: the anchor (index `aIdx`) is skipped, every other member is
drained.  On an error the member being drained still ends up empty (Rust's
`drain(..)` clears the vector when the iterator is dropped) and the members
after it are left untouched. -/
def dedupeLoop (src : Path) (dryRun : Bool) (oracle : Nat → Option IoErr)
    (aIdx : Nat) :
    List FileSet → Nat → MergeSt → Option (List FileSet × MergeSt × Option IoErr)
  | [], _, st => some ([], st, none)
  | f :: rest, i, st =>
    if i = aIdx then
      match dedupeLoop src dryRun oracle aIdx rest (i + 1) st with
      | none => none
      | some (rest', st', r) => some (f :: rest', st', r)
    else
      match processSet src dryRun oracle f.paths st with
      | none => none
      | some (st', some e) => some ({ f with paths := [] } :: rest, st', some e)
      | some (st', none) =>
        match dedupeLoop src dryRun oracle aIdx rest (i + 1) st' with
        | none => none
        | some (rest', st'', r) => some ({ f with paths := [] } :: rest', st'', r)

/-- `Scanner::dedupe`.  Returns the updated bucket, the listener events, the
trace of attempted filesystem operations and the propagated error, if any;
`none` models a panic (`expect` on an empty bucket, indexing an anchor with
no paths, or a failed `assert_ne!`). -/
def dedupe (filesets : List FileSet) (dryRun : Bool)
    (oracle : Nat → Option IoErr) :
    Option (List FileSet × List Event × List FsOp × Option IoErr) :=
  match selectAnchor filesets with
  | none => none
  | some (aIdx, anchor) =>
    match anchor.paths with
    | [] => none
    | src :: _ =>
      match dedupeLoop src dryRun oracle aIdx filesets 0 ⟨[], [], [], 0⟩ with
      | none => none
      | some (fs', st, r) =>
          some (fs'.set aIdx { anchor with paths := anchor.paths ++ st.merged },
                st.events, st.ops, r)

/-- The paths drained by `dedupe`: the concatenation, in bucket order, of
the path lists of all non-anchor members (indices counted from `i`). -/
def drainedFrom : Nat → Nat → List FileSet → List Path
  | _, _, [] => []
  | i, aIdx, f :: rest =>
      (if i = aIdx then [] else f.paths) ++ drainedFrom (i + 1) aIdx rest

/-- The bucket after a complete merge, before the anchor is rewritten:
every non-anchor member is emptied. -/
def emptyExcept : Nat → Nat → List FileSet → List FileSet
  | _, _, [] => []
  | i, aIdx, f :: rest =>
      (if i = aIdx then f else { f with paths := [] }) :: emptyExcept (i + 1) aIdx rest

/-- The all-success filesystem oracle. -/
def okOracle : Nat → Option IoErr := fun _ => none

theorem processSet_dry_eq (src : Path) (oracle : Nat → Option IoErr)
    (ps : List Path) (st : MergeSt) :
    processSet src true oracle ps st =
      if src ∈ ps then none
      else some ({ st with
        merged := st.merged ++ ps,
        events := st.events ++ ps.map (fun d => Event.duplicateFound d src) },
        none) := by
  induction ps generalizing st with
  | nil => simp [processSet]
  | cons d ds ih =>
    by_cases hd : src = d
    · subst hd; simp [processSet, processPath]
    · rw [processSet, processPath]
      simp only [if_neg hd, if_true]
      rw [ih]
      by_cases hmem : src ∈ ds
      · simp [hmem, hd]
      · simp [hmem, hd, List.append_assoc]

theorem processSet_live_ok_eq (src : Path) (ps : List Path) (st : MergeSt) :
    processSet src false okOracle ps st =
      if src ∈ ps then none
      else some ({ st with
        merged := st.merged ++ ps,
        events := st.events ++ ps.map (fun d => Event.hardlinked d src),
        ops := st.ops ++ (ps.map (fun d =>
          [FsOp.hardLink src (tempPathOf d), FsOp.rename (tempPathOf d) d])).flatten,
        opIdx := st.opIdx + 2 * ps.length }, none) := by
  induction ps generalizing st with
  | nil => simp [processSet]
  | cons d ds ih =>
    by_cases hd : src = d
    · subst hd; simp [processSet, processPath]
    · rw [processSet, processPath]
      simp only [if_neg hd, Bool.false_eq_true, if_false, okOracle]
      rw [ih]
      by_cases hmem : src ∈ ds
      · simp [hmem, hd]
      · simp [hmem, hd, List.append_assoc, MergeSt.mk.injEq]; omega

theorem processSet_live_none (src : Path) (oracle : Nat → Option IoErr)
    (ps : List Path) (st st' : MergeSt)
    (h : processSet src false oracle ps st = some (st', none)) :
    st'.merged = st.merged ++ ps ∧
      st'.events = st.events ++ ps.map (fun d => Event.hardlinked d src) ∧
      st'.ops = st.ops ++ (ps.map (fun d =>
        [FsOp.hardLink src (tempPathOf d), FsOp.rename (tempPathOf d) d])).flatten := by
  induction ps generalizing st with
  | nil =>
    simp only [processSet, Option.some.injEq, Prod.mk.injEq] at h
    obtain ⟨rfl, -⟩ := h
    simp
  | cons d ds ih =>
    rw [processSet, processPath] at h
    by_cases hd : src = d
    · simp [hd] at h
    · simp only [if_neg hd, Bool.false_eq_true, if_false] at h
      cases h₁ : oracle st.opIdx with
      | some e => rw [h₁] at h; simp at h
      | none =>
        rw [h₁] at h
        cases h₂ : oracle (st.opIdx + 1) with
        | some e => rw [h₂] at h; simp at h
        | none =>
          rw [h₂] at h
          obtain ⟨hm, he, ho⟩ := ih _ h
          refine ⟨?_, ?_, ?_⟩
          · rw [hm]; simp [List.append_assoc]
          · rw [he]; simp [List.append_assoc]
          · rw [ho]; simp [List.append_assoc]

theorem processSet_err_shape (src : Path) (oracle : Nat → Option IoErr)
    (ps : List Path) (st st' : MergeSt) (e : IoErr)
    (h : processSet src false oracle ps st = some (st', some e)) :
    oracle (st'.opIdx - 1) = some e ∧
      ∃ d pre, d ∈ ps ∧
        (st'.ops = pre ++ [FsOp.hardLink src (tempPathOf d),
                           FsOp.removeFile (tempPathOf d)] ∨
         st'.ops = pre ++ [FsOp.hardLink src (tempPathOf d),
                           FsOp.rename (tempPathOf d) d,
                           FsOp.removeFile (tempPathOf d)]) := by
  induction ps generalizing st with
  | nil => simp [processSet] at h
  | cons d ds ih =>
    rw [processSet, processPath] at h
    by_cases hd : src = d
    · simp [hd] at h
    · simp only [if_neg hd, Bool.false_eq_true, if_false] at h
      cases h₁ : oracle st.opIdx with
      | some e' =>
        rw [h₁] at h
        simp only [Option.some.injEq, Prod.mk.injEq] at h
        obtain ⟨rfl, he⟩ := h
        subst he
        refine ⟨by simpa using h₁, d, st.ops, List.mem_cons_self _ _, Or.inl rfl⟩
      | none =>
        rw [h₁] at h
        cases h₂ : oracle (st.opIdx + 1) with
        | some e' =>
          rw [h₂] at h
          simp only [Option.some.injEq, Prod.mk.injEq] at h
          obtain ⟨rfl, he⟩ := h
          subst he
          refine ⟨by simpa using h₂, d, st.ops, List.mem_cons_self _ _, Or.inr rfl⟩
        | none =>
          rw [h₂] at h
          obtain ⟨ho, d', pre, hmem, hsh⟩ := ih _ h
          exact ⟨ho, d', pre, List.mem_cons_of_mem _ hmem, hsh⟩

theorem emptyExcept_length (aIdx : Nat) :
    ∀ (fs : List FileSet) (i : Nat), (emptyExcept i aIdx fs).length = fs.length := by
  intro fs
  induction fs with
  | nil => intro i; rfl
  | cons f rest ih => intro i; simp [emptyExcept, ih]

theorem emptyExcept_get? (aIdx : Nat) :
    ∀ (fs : List FileSet) (i j : Nat),
      (emptyExcept i aIdx fs).get? j =
        (fs.get? j).map (fun g => if i + j = aIdx then g else { g with paths := [] }) := by
  intro fs
  induction fs with
  | nil => intro i j; simp [emptyExcept]
  | cons f rest ih =>
    intro i j
    cases j with
    | zero => simp [emptyExcept]
    | succ k =>
      simp only [emptyExcept, List.get?_cons_succ]
      rw [ih (i + 1) k]
      have he : i + 1 + k = i + (k + 1) := by omega
      rw [he]

theorem emptyExcept_links (aIdx : Nat) :
    ∀ (fs : List FileSet) (i : Nat),
      (emptyExcept i aIdx fs).map FileSet.links = fs.map FileSet.links := by
  intro fs
  induction fs with
  | nil => intro i; rfl
  | cons f rest ih =>
    intro i
    simp only [emptyExcept, List.map_cons, ih]
    by_cases hi : i = aIdx <;> simp [hi]

theorem get?_set_self {α : Type} :
    ∀ (l : List α) (i : Nat) (a : α), i < l.length → (l.set i a).get? i = some a := by
  intro l
  induction l with
  | nil => intro i a h; simp at h
  | cons x xs ih =>
    intro i a h
    cases i with
    | zero => rfl
    | succ k =>
      simp only [List.set_cons_succ, List.get?_cons_succ]
      exact ih k a (by simpa using h)

theorem get?_set_ne {α : Type} :
    ∀ (l : List α) (i j : Nat) (a : α), i ≠ j → (l.set i a).get? j = l.get? j := by
  intro l
  induction l with
  | nil => intro i j a h; simp
  | cons x xs ih =>
    intro i j a h
    cases i with
    | zero =>
      cases j with
      | zero => exact absurd rfl h
      | succ k => rfl
    | succ m =>
      cases j with
      | zero => rfl
      | succ k =>
        simp only [List.set_cons_succ, List.get?_cons_succ]
        exact ih m k a (by omega)

/-- A completed `dedupeLoop` (no error) empties every non-anchor member and
appends exactly the drained paths, in order, to the merge state. -/
theorem dedupeLoop_none_merged (src : Path) (dryRun : Bool)
    (oracle : Nat → Option IoErr) (aIdx : Nat) :
    ∀ (fs : List FileSet) (i : Nat) (st : MergeSt) (fs' : List FileSet) (st' : MergeSt),
      dedupeLoop src dryRun oracle aIdx fs i st = some (fs', st', none) →
      fs' = emptyExcept i aIdx fs ∧ st'.merged = st.merged ++ drainedFrom i aIdx fs := by
  intro fs
  induction fs with
  | nil =>
    intro i st fs' st' h
    simp only [dedupeLoop, Option.some.injEq, Prod.mk.injEq] at h
    obtain ⟨rfl, rfl, -⟩ := h
    simp [emptyExcept, drainedFrom]
  | cons f rest ih =>
    intro i st fs' st' h
    rw [dedupeLoop] at h
    by_cases hi : i = aIdx
    · rw [if_pos hi] at h
      cases hrec : dedupeLoop src dryRun oracle aIdx rest (i + 1) st with
      | none => rw [hrec] at h; simp at h
      | some v =>
        obtain ⟨rest', st₁, r⟩ := v
        rw [hrec] at h
        simp only [Option.some.injEq, Prod.mk.injEq] at h
        obtain ⟨rfl, rfl, rfl⟩ := h
        obtain ⟨hfs, hm⟩ := ih (i + 1) st rest' st₁ hrec
        subst hfs
        refine ⟨by simp [emptyExcept, hi], by simpa [drainedFrom, hi] using hm⟩
    · rw [if_neg hi] at h
      cases hps : processSet src dryRun oracle f.paths st with
      | none => rw [hps] at h; simp at h
      | some v =>
        obtain ⟨st₁, r₁⟩ := v
        rw [hps] at h
        cases r₁ with
        | some e => simp at h
        | none =>
          simp only at h
          cases hrec : dedupeLoop src dryRun oracle aIdx rest (i + 1) st₁ with
          | none => rw [hrec] at h; simp at h
          | some v =>
            obtain ⟨rest', st₂, r⟩ := v
            rw [hrec] at h
            simp only [Option.some.injEq, Prod.mk.injEq] at h
            obtain ⟨rfl, rfl, rfl⟩ := h
            obtain ⟨hfs, hm⟩ := ih (i + 1) st₁ rest' st₂ hrec
            subst hfs
            have hm₁ : st₁.merged = st.merged ++ f.paths := by
              cases hdry : dryRun
              · exact (processSet_live_none src oracle f.paths st st₁
                  (by rwa [hdry] at hps)).1
              · rw [hdry] at hps
                rw [processSet_dry_eq] at hps
                by_cases hsrc : src ∈ f.paths
                · simp [hsrc] at hps
                · simp only [hsrc, if_false, Option.some.injEq, Prod.mk.injEq] at hps
                  obtain ⟨rfl, -⟩ := hps
                  rfl
            refine ⟨by simp [emptyExcept, hi], ?_⟩
            rw [hm, hm₁]
            simp [drainedFrom, hi, List.append_assoc]

theorem dedupeLoop_dry_eq (src : Path) (oracle : Nat → Option IoErr) (aIdx : Nat) :
    ∀ (fs : List FileSet) (i : Nat) (st : MergeSt),
      dedupeLoop src true oracle aIdx fs i st =
        if src ∈ drainedFrom i aIdx fs then none
        else some (emptyExcept i aIdx fs,
          { st with
            merged := st.merged ++ drainedFrom i aIdx fs,
            events := st.events ++ (drainedFrom i aIdx fs).map
              (fun d => Event.duplicateFound d src) }, none) := by
  intro fs
  induction fs with
  | nil => intro i st; simp [dedupeLoop, drainedFrom, emptyExcept]
  | cons f rest ih =>
    intro i st
    rw [dedupeLoop]
    by_cases hi : i = aIdx
    · subst hi
      rw [ih]
      by_cases hmem : src ∈ drainedFrom (i + 1) i rest
      · simp [hmem, drainedFrom]
      · simp [hmem, drainedFrom, emptyExcept]
    · rw [if_neg hi, processSet_dry_eq]
      by_cases hsrc : src ∈ f.paths
      · simp [hsrc, hi, drainedFrom]
      · rw [if_neg hsrc]
        simp only []
        rw [ih]
        by_cases hmem : src ∈ drainedFrom (i + 1) aIdx rest
        · simp [hsrc, hmem, hi, drainedFrom]
        · simp [hsrc, hmem, hi, drainedFrom, emptyExcept, List.append_assoc]

theorem dedupeLoop_live_ok_eq (src : Path) (aIdx : Nat) :
    ∀ (fs : List FileSet) (i : Nat) (st : MergeSt),
      dedupeLoop src false okOracle aIdx fs i st =
        if src ∈ drainedFrom i aIdx fs then none
        else some (emptyExcept i aIdx fs,
          { st with
            merged := st.merged ++ drainedFrom i aIdx fs,
            events := st.events ++ (drainedFrom i aIdx fs).map
              (fun d => Event.hardlinked d src),
            ops := st.ops ++ ((drainedFrom i aIdx fs).map (fun d =>
              [FsOp.hardLink src (tempPathOf d),
               FsOp.rename (tempPathOf d) d])).flatten,
            opIdx := st.opIdx + 2 * (drainedFrom i aIdx fs).length }, none) := by
  intro fs
  induction fs with
  | nil => intro i st; simp [dedupeLoop, drainedFrom, emptyExcept]
  | cons f rest ih =>
    intro i st
    rw [dedupeLoop]
    by_cases hi : i = aIdx
    · subst hi
      rw [ih]
      by_cases hmem : src ∈ drainedFrom (i + 1) i rest
      · simp [hmem, drainedFrom]
      · simp [hmem, drainedFrom, emptyExcept]
    · rw [if_neg hi, processSet_live_ok_eq]
      by_cases hsrc : src ∈ f.paths
      · simp [hsrc, hi, drainedFrom]
      · rw [if_neg hsrc]
        simp only []
        rw [ih]
        by_cases hmem : src ∈ drainedFrom (i + 1) aIdx rest
        · simp [hsrc, hmem, hi, drainedFrom]
        · simp [hsrc, hmem, hi, drainedFrom, emptyExcept, List.append_assoc,
            MergeSt.mk.injEq]
          try omega

theorem dedupeLoop_err_shape (src : Path) (oracle : Nat → Option IoErr) (aIdx : Nat) :
    ∀ (fs : List FileSet) (i : Nat) (st : MergeSt) (fs' : List FileSet)
      (st' : MergeSt) (e : IoErr),
      dedupeLoop src false oracle aIdx fs i st = some (fs', st', some e) →
      oracle (st'.opIdx - 1) = some e ∧
        ∃ d pre, d ∈ drainedFrom i aIdx fs ∧
          (st'.ops = pre ++ [FsOp.hardLink src (tempPathOf d),
                             FsOp.removeFile (tempPathOf d)] ∨
           st'.ops = pre ++ [FsOp.hardLink src (tempPathOf d),
                             FsOp.rename (tempPathOf d) d,
                             FsOp.removeFile (tempPathOf d)]) := by
  intro fs
  induction fs with
  | nil => intro i st fs' st' e h; simp [dedupeLoop] at h
  | cons f rest ih =>
    intro i st fs' st' e h
    rw [dedupeLoop] at h
    by_cases hi : i = aIdx
    · subst hi
      rw [if_pos rfl] at h
      cases hrec : dedupeLoop src false oracle i rest (i + 1) st with
      | none => rw [hrec] at h; simp at h
      | some v =>
        obtain ⟨rest', st₁, r⟩ := v
        rw [hrec] at h
        simp only [Option.some.injEq, Prod.mk.injEq] at h
        obtain ⟨rfl, rfl, rfl⟩ := h
        obtain ⟨ho, d, pre, hmem, hsh⟩ := ih (i + 1) st rest' st₁ e hrec
        exact ⟨ho, d, pre, by simp [drainedFrom, hmem], hsh⟩
    · rw [if_neg hi] at h
      cases hps : processSet src false oracle f.paths st with
      | none => rw [hps] at h; simp at h
      | some v =>
        obtain ⟨st₁, r₁⟩ := v
        rw [hps] at h
        cases r₁ with
        | some e₁ =>
          simp only [Option.some.injEq, Prod.mk.injEq] at h
          obtain ⟨rfl, rfl, he⟩ := h
          subst he
          obtain ⟨ho, d, pre, hmem, hsh⟩ :=
            processSet_err_shape src oracle f.paths st st₁ e₁ hps
          exact ⟨ho, d, pre, by simp [drainedFrom, hi, hmem], hsh⟩
        | none =>
          simp only at h
          cases hrec : dedupeLoop src false oracle aIdx rest (i + 1) st₁ with
          | none => rw [hrec] at h; simp at h
          | some v =>
            obtain ⟨rest', st₂, r⟩ := v
            rw [hrec] at h
            simp only [Option.some.injEq, Prod.mk.injEq] at h
            obtain ⟨rfl, rfl, rfl⟩ := h
            obtain ⟨ho, d, pre, hmem, hsh⟩ := ih (i + 1) st₁ rest' st₂ e hrec
            exact ⟨ho, d, pre, by simp [drainedFrom, hi, hmem], hsh⟩

/-- Inversion for `dedupe`: a non-panicking call decomposes into anchor
selection, the source path, and the loop result. -/
theorem dedupe_inv (filesets : List FileSet) (dryRun : Bool)
    (oracle : Nat → Option IoErr)
    (out : List FileSet × List Event × List FsOp × Option IoErr)
    (h : dedupe filesets dryRun oracle = some out) :
    ∃ aIdx anchor src tl fsL st r,
      selectAnchor filesets = some (aIdx, anchor) ∧
      anchor.paths = src :: tl ∧
      dedupeLoop src dryRun oracle aIdx filesets 0 ⟨[], [], [], 0⟩ =
        some (fsL, st, r) ∧
      out = (fsL.set aIdx { anchor with paths := anchor.paths ++ st.merged },
             st.events, st.ops, r) := by
  rw [dedupe] at h
  cases hsel : selectAnchor filesets with
  | none => rw [hsel] at h; simp at h
  | some v =>
    obtain ⟨aIdx, anchor⟩ := v
    rw [hsel] at h
    simp only at h
    cases hp : anchor.paths with
    | nil => rw [hp] at h; simp at h
    | cons src tl =>
      rw [hp] at h
      simp only at h
      cases hloop : dedupeLoop src dryRun oracle aIdx filesets 0 ⟨[], [], [], 0⟩ with
      | none => rw [hloop] at h; simp at h
      | some v =>
        obtain ⟨fsL, st, r⟩ := v
        rw [hloop] at h
        simp only [Option.some.injEq] at h
        refine ⟨aIdx, anchor, src, tl, fsL, st, r, ?_, ?_, ?_, ?_⟩
        · rfl
        · exact hp
        · exact hloop
        · rw [hp]
          exact h.symm

/-- A `dedupe` call that returns without error rewrites the bucket to: every
non-anchor member emptied, the anchor extended by all drained paths. -/
theorem dedupe_success_spec (fs : List FileSet) (aIdx : Nat) (anchor : FileSet)
    (dryRun : Bool) (oracle : Nat → Option IoErr) (fs' : List FileSet)
    (ev : List Event) (ops : List FsOp)
    (hsel : selectAnchor fs = some (aIdx, anchor))
    (h : dedupe fs dryRun oracle = some (fs', ev, ops, none)) :
    fs' = (emptyExcept 0 aIdx fs).set aIdx
      { anchor with paths := anchor.paths ++ drainedFrom 0 aIdx fs } := by
  obtain ⟨aIdx', anchor', src, tl, fsL, st, r, hsel', hp, hloop, hout⟩ :=
    dedupe_inv fs dryRun oracle _ h
  rw [hsel] at hsel'
  simp only [Option.some.injEq, Prod.mk.injEq] at hsel'
  obtain ⟨hA, hB⟩ := hsel'
  subst hA
  subst hB
  simp only [Prod.mk.injEq] at hout
  obtain ⟨hfs', -, -, hr⟩ := hout
  subst hr
  obtain ⟨hL, hm⟩ := dedupeLoop_none_merged src dryRun oracle aIdx fs 0
    ⟨[], [], [], 0⟩ fsL st hloop
  subst hL
  rw [hfs', hm]
  simp

theorem drainedFrom_append (aIdx : Nat) (l₂ : List FileSet) :
    ∀ (l₁ : List FileSet) (i : Nat),
      drainedFrom i aIdx (l₁ ++ l₂) =
        drainedFrom i aIdx l₁ ++ drainedFrom (i + l₁.length) aIdx l₂ := by
  intro l₁
  induction l₁ with
  | nil => intro i; simp [drainedFrom]
  | cons f rest ih =>
    intro i
    rw [List.cons_append, drainedFrom, drainedFrom, ih (i + 1)]
    have he : i + 1 + rest.length = i + (f :: rest).length := by
      simp; omega
    rw [he, List.append_assoc]

theorem drainedFrom_nil_of (aIdx : Nat) :
    ∀ (L : List FileSet) (i : Nat),
      (∀ j g, L.get? j = some g → i + j ≠ aIdx → g.paths = []) →
      drainedFrom i aIdx L = [] := by
  intro L
  induction L with
  | nil => intro i _; rfl
  | cons f rest ih =>
    intro i h
    rw [drainedFrom]
    by_cases hi : i = aIdx
    · rw [if_pos hi, ih (i + 1) (fun j g hj hne => h (j + 1) g (by simpa using hj)
        (by omega))]
      rfl
    · rw [if_neg hi, ih (i + 1) (fun j g hj hne => h (j + 1) g (by simpa using hj)
        (by omega))]
      rw [h 0 f (by simp) (by omega)]
      rfl

/-- Claim C1: for every content-index bucket of at least two FileSets passed
to the merge algorithm, the anchor selected is the member whose recorded
hardlink count (the value stored at FileSet creation) is maximal, and when
several members share that maximal count, the member at the earliest
position in the bucket (earliest discovered) is chosen. -/
theorem anchor_is_max_links_earliest (fs : List FileSet)
    (h2 : 2 ≤ fs.length) (hlen : fs.length ≤ UMAX + 1) :
    ∃ i f, selectAnchor fs = some (i, f) ∧ fs.get? i = some f ∧
      (∀ j g, fs.get? j = some g → g.links ≤ f.links) ∧
      (∀ j g, fs.get? j = some g → g.links = f.links → i ≤ j) := by
  have hne : fs ≠ [] := by
    intro h; rw [h] at h2; simp at h2
  obtain ⟨i, f, hsel, hget, hdom⟩ := selectAnchor_sound fs hne
  obtain ⟨hi_lt, -⟩ := List.get?_eq_some.mp hget
  refine ⟨i, f, hsel, hget, ?_, ?_⟩
  · intro j g hjg
    have hk := hdom j g hjg
    unfold keyLE keyOf at hk
    simp only at hk
    omega
  · intro j g hjg hlinks
    obtain ⟨hj_lt, -⟩ := List.get?_eq_some.mp hjg
    have hk := hdom j g hjg
    unfold keyLE keyOf at hk
    simp only at hk
    omega

/-- Concrete bucket for the claim-C1 witness: recorded link counts 1, 5, 2. -/
def c1Bucket : List FileSet :=
  [⟨[["f1"]], 1⟩, ⟨[["f2"]], 5⟩, ⟨[["f3"]], 2⟩]

theorem anchor_is_max_links_earliest_witness :
    2 ≤ c1Bucket.length ∧ c1Bucket.length ≤ UMAX + 1 ∧
      ∃ i f, selectAnchor c1Bucket = some (i, f) ∧ c1Bucket.get? i = some f ∧
        (∀ j g, c1Bucket.get? j = some g → g.links ≤ f.links) ∧
        (∀ j g, c1Bucket.get? j = some g → g.links = f.links → i ≤ j) :=
  ⟨by decide, by decide,
    anchor_is_max_links_earliest c1Bucket (by decide) (by decide)⟩

theorem get?_append_lt {α : Type} :
    ∀ (l₁ l₂ : List α) (n : Nat), n < l₁.length → (l₁ ++ l₂).get? n = l₁.get? n := by
  intro l₁
  induction l₁ with
  | nil => intro l₂ n h; simp at h
  | cons x xs ih =>
    intro l₂ n h
    cases n with
    | zero => rfl
    | succ k =>
      simp only [List.cons_append, List.get?_cons_succ]
      exact ih l₂ k (by simpa using h)

theorem get?_append_len {α : Type} :
    ∀ (l₁ l₂ : List α), (l₁ ++ l₂).get? l₁.length = l₂.get? 0 := by
  intro l₁
  induction l₁ with
  | nil => intro l₂; rfl
  | cons x xs ih => intro l₂; simpa using ih l₂

/-- Claim C2 counterexample: two FileSets with link count 1 are merged (the
first becomes the anchor and absorbs path `b`); appending a FileSet with
link count 5 and re-running the merge selects the *new* member as anchor —
the previous anchor's accumulated paths are drained out of it, so the new
member is not merged against the same anchor as before. -/
theorem dedupe_remerge_counterexample :
    dedupe [⟨[["a"]], 1⟩, ⟨[["b"]], 1⟩] true okOracle =
      some ([⟨[["a"], ["b"]], 1⟩, ⟨[], 1⟩],
            [Event.duplicateFound ["b"] ["a"]], [], none) ∧
    selectAnchor [⟨[["a"]], 1⟩, ⟨[["b"]], 1⟩] = some (0, ⟨[["a"]], 1⟩) ∧
    selectAnchor [⟨[["a"], ["b"]], 1⟩, ⟨[], 1⟩, ⟨[["c"]], 5⟩] =
      some (2, ⟨[["c"]], 5⟩) ∧
    dedupe [⟨[["a"], ["b"]], 1⟩, ⟨[], 1⟩, ⟨[["c"]], 5⟩] true okOracle =
      some ([⟨[], 1⟩, ⟨[], 1⟩, ⟨[["c"], ["a"], ["b"]], 5⟩],
            [Event.duplicateFound ["a"] ["c"], Event.duplicateFound ["b"] ["c"]],
            [], none) ∧
    (2 : Nat) ≠ 0 :=
  ⟨by decide, by decide, by decide, by decide, by decide⟩

/-- Claim C2 (amended): after a merge of a content-index bucket completes
without error, every path drained from the non-anchor FileSets has been
appended to the anchor's path list, and the non-anchor members are left with
empty path lists.  When a further FileSet with the same fingerprint is later
appended to the bucket and the merge algorithm is invoked again, the new
member's paths are merged against the same anchor as before — provided the
new member's recorded hardlink count does not exceed the anchor's; a new
member with a strictly larger recorded count becomes the anchor itself
instead (see the counterexample). -/
theorem dedupe_folds_into_anchor_and_anchor_stable
    (fs : List FileSet) (aIdx : Nat) (anchor : FileSet) (dryRun : Bool)
    (oracle : Nat → Option IoErr) (fs' : List FileSet) (ev : List Event)
    (ops : List FsOp)
    (hsel : selectAnchor fs = some (aIdx, anchor))
    (h : dedupe fs dryRun oracle = some (fs', ev, ops, none)) :
    fs'.get? aIdx =
      some { anchor with paths := anchor.paths ++ drainedFrom 0 aIdx fs } ∧
    (∀ j g, j ≠ aIdx → fs.get? j = some g →
      fs'.get? j = some { g with paths := [] }) ∧
    (∀ newFs : FileSet, newFs.links ≤ anchor.links → fs.length ≤ UMAX →
      selectAnchor (fs' ++ [newFs]) =
        some (aIdx, { anchor with paths := anchor.paths ++ drainedFrom 0 aIdx fs })) ∧
    (∀ (newFs : FileSet) (dryRun₂ : Bool) (oracle₂ : Nat → Option IoErr)
      (fs₂ : List FileSet) (ev₂ : List Event) (ops₂ : List FsOp),
      newFs.links ≤ anchor.links → fs.length ≤ UMAX →
      dedupe (fs' ++ [newFs]) dryRun₂ oracle₂ = some (fs₂, ev₂, ops₂, none) →
      fs₂.get? aIdx = some { anchor with
        paths := (anchor.paths ++ drainedFrom 0 aIdx fs) ++ newFs.paths }) := by
  have hfs' := dedupe_success_spec fs aIdx anchor dryRun oracle fs' ev ops hsel h
  have hne : fs ≠ [] := by
    intro heq; rw [heq] at hsel; simp [selectAnchor, enumFrom] at hsel
  obtain ⟨i₀, f₀, hs₀, hget₀, hdom₀⟩ := selectAnchor_sound fs hne
  rw [hsel] at hs₀
  simp only [Option.some.injEq, Prod.mk.injEq] at hs₀
  obtain ⟨hA, hB⟩ := hs₀
  subst hA; subst hB
  obtain ⟨haIdx_lt, -⟩ := List.get?_eq_some.mp hget₀
  have hlen' : fs'.length = fs.length := by
    rw [hfs']
    simp [emptyExcept_length]
  have c1 : fs'.get? aIdx =
      some { anchor with paths := anchor.paths ++ drainedFrom 0 aIdx fs } := by
    rw [hfs']
    exact get?_set_self _ _ _ (by rw [emptyExcept_length]; exact haIdx_lt)
  have c2 : ∀ j g, j ≠ aIdx → fs.get? j = some g →
      fs'.get? j = some { g with paths := [] } := by
    intro j g hj hjg
    rw [hfs', get?_set_ne _ _ _ _ (Ne.symm hj), emptyExcept_get?, hjg]
    simp [hj]
  have c2' : ∀ j g, j ≠ aIdx → fs'.get? j = some g →
      ∃ g₀, fs.get? j = some g₀ ∧ g = { g₀ with paths := [] } := by
    intro j g hj hjg
    have hj0 : ¬ (0 + j = aIdx) := by omega
    rw [hfs', get?_set_ne _ _ _ _ (Ne.symm hj), emptyExcept_get?] at hjg
    cases hfg : fs.get? j with
    | none => rw [hfg] at hjg; simp at hjg
    | some g₀ =>
      rw [hfg] at hjg
      simp only [Option.map_some', Option.some.injEq] at hjg
      rw [if_neg hj0] at hjg
      exact ⟨g₀, rfl, hjg.symm⟩
  have c3 : ∀ newFs : FileSet, newFs.links ≤ anchor.links → fs.length ≤ UMAX →
      selectAnchor (fs' ++ [newFs]) =
        some (aIdx, { anchor with paths := anchor.paths ++ drainedFrom 0 aIdx fs }) := by
    intro newFs hlinks hU
    apply selectAnchor_complete
    · simp only [List.length_append, List.length_singleton, hlen']
      omega
    · rw [get?_append_lt _ _ _ (by omega : aIdx < fs'.length)]
      exact c1
    · intro j g hjg
      obtain ⟨hj_lt, -⟩ := List.get?_eq_some.mp hjg
      rw [List.length_append, List.length_singleton] at hj_lt
      by_cases hjf : j < fs'.length
      · rw [get?_append_lt _ _ _ hjf] at hjg
        by_cases hja : j = aIdx
        · subst hja
          rw [c1] at hjg
          injection hjg with hjg
          subst hjg
          exact le_refl _
        · obtain ⟨g₀, hg₀, rfl⟩ := c2' j g hja hjg
          have hk := hdom₀ j g₀ hg₀
          unfold keyLE keyOf at hk
          simp only at hk
          show g₀.links ≤ anchor.links
          omega
      · have hj_eq : j = fs'.length := by omega
        subst hj_eq
        rw [get?_append_len] at hjg
        simp only [List.get?_cons_zero, Option.some.injEq] at hjg
        subst hjg
        exact hlinks
    · intro j g hjg hgl
      obtain ⟨hj_lt, -⟩ := List.get?_eq_some.mp hjg
      rw [List.length_append, List.length_singleton] at hj_lt
      by_cases hjf : j < fs'.length
      · rw [get?_append_lt _ _ _ hjf] at hjg
        by_cases hja : j = aIdx
        · omega
        · obtain ⟨g₀, hg₀, rfl⟩ := c2' j g hja hjg
          have hk := hdom₀ j g₀ hg₀
          unfold keyLE keyOf at hk
          simp only at hk
          have hgl' : g₀.links = anchor.links := hgl
          omega
      · omega
  refine ⟨c1, c2, c3, ?_⟩
  intro newFs dry₂ or₂ fs₂ ev₂ ops₂ hlinks hU h₂
  have hsel₂ := c3 newFs hlinks hU
  have hfs₂ := dedupe_success_spec _ aIdx _ dry₂ or₂ fs₂ ev₂ ops₂ hsel₂ h₂
  have hd1 : drainedFrom 0 aIdx fs' = [] := by
    apply drainedFrom_nil_of
    intro j g hjg hne'
    have hj : j ≠ aIdx := by omega
    obtain ⟨g₀, -, rfl⟩ := c2' j g hj hjg
    rfl
  have hdL : drainedFrom 0 aIdx (fs' ++ [newFs]) = newFs.paths := by
    rw [drainedFrom_append, hd1]
    have hne2 : fs'.length ≠ aIdx := by omega
    simp [drainedFrom, hne2]
  have hbound : aIdx < (emptyExcept 0 aIdx (fs' ++ [newFs])).length := by
    rw [emptyExcept_length]
    simp only [List.length_append, List.length_singleton, hlen']
    omega
  rw [hfs₂, hdL, get?_set_self _ _ _ hbound]

theorem dedupe_folds_into_anchor_and_anchor_stable_witness :
    (selectAnchor [⟨[["wa"]], 1⟩, ⟨[["wb"]], 1⟩] = some (0, ⟨[["wa"]], 1⟩)) ∧
    (dedupe [⟨[["wa"]], 1⟩, ⟨[["wb"]], 1⟩] true okOracle =
      some ([⟨[["wa"], ["wb"]], 1⟩, ⟨[], 1⟩],
        [Event.duplicateFound ["wb"] ["wa"]], [], none)) ∧
    (([⟨[["wa"], ["wb"]], 1⟩, ⟨[], 1⟩] : List FileSet).get? 0 =
        some ⟨[["wa"], ["wb"]], 1⟩ ∧
      (∀ j g, j ≠ 0 →
        ([⟨[["wa"]], 1⟩, ⟨[["wb"]], 1⟩] : List FileSet).get? j = some g →
        ([⟨[["wa"], ["wb"]], 1⟩, ⟨[], 1⟩] : List FileSet).get? j =
          some { g with paths := [] }) ∧
      (∀ newFs : FileSet, newFs.links ≤ 1 →
        ([⟨[["wa"]], 1⟩, ⟨[["wb"]], 1⟩] : List FileSet).length ≤ UMAX →
        selectAnchor ([⟨[["wa"], ["wb"]], 1⟩, ⟨[], 1⟩] ++ [newFs]) =
          some (0, ⟨[["wa"], ["wb"]], 1⟩)) ∧
      (∀ (newFs : FileSet) (dryRun₂ : Bool) (oracle₂ : Nat → Option IoErr)
        (fs₂ : List FileSet) (ev₂ : List Event) (ops₂ : List FsOp),
        newFs.links ≤ 1 →
        ([⟨[["wa"]], 1⟩, ⟨[["wb"]], 1⟩] : List FileSet).length ≤ UMAX →
        dedupe ([⟨[["wa"], ["wb"]], 1⟩, ⟨[], 1⟩] ++ [newFs]) dryRun₂ oracle₂ =
          some (fs₂, ev₂, ops₂, none) →
        fs₂.get? 0 = some ⟨[["wa"], ["wb"]] ++ newFs.paths, 1⟩)) :=
  ⟨by decide, by decide,
    dedupe_folds_into_anchor_and_anchor_stable
      [⟨[["wa"]], 1⟩, ⟨[["wb"]], 1⟩] 0 ⟨[["wa"]], 1⟩ true okOracle
      [⟨[["wa"], ["wb"]], 1⟩, ⟨[], 1⟩] [Event.duplicateFound ["wb"] ["wa"]] []
      (by decide) (by decide)⟩

/-- Claim C3: during a live merge, if the hard_link step or the rename step
fails for some duplicate path, the temporary path is removed (best effort,
as the last attempted operation), the merge returns that error immediately
to its caller (the propagated error is the failing call's error and the
trace ends right after the cleanup), and the remaining not-yet-processed
paths of the FileSet being drained are not retried within that call (no
operation follows the cleanup). -/
theorem dedupe_live_error_aborts
    (fs : List FileSet) (oracle : Nat → Option IoErr) (fs' : List FileSet)
    (ev : List Event) (ops : List FsOp) (e : IoErr)
    (h : dedupe fs false oracle = some (fs', ev, ops, some e)) :
    ∃ aIdx anchor src tl, selectAnchor fs = some (aIdx, anchor) ∧
      anchor.paths = src :: tl ∧
      (∃ k, oracle k = some e) ∧
      ∃ d pre, d ∈ drainedFrom 0 aIdx fs ∧
        (ops = pre ++ [FsOp.hardLink src (tempPathOf d),
                       FsOp.removeFile (tempPathOf d)] ∨
         ops = pre ++ [FsOp.hardLink src (tempPathOf d),
                       FsOp.rename (tempPathOf d) d,
                       FsOp.removeFile (tempPathOf d)]) := by
  obtain ⟨aIdx, anchor, src, tl, fsL, st, r, hsel, hp, hloop, hout⟩ :=
    dedupe_inv fs false oracle _ h
  simp only [Prod.mk.injEq] at hout
  obtain ⟨-, -, hops, hr⟩ := hout
  rw [← hr] at hloop
  obtain ⟨ho, d, pre, hmem, hsh⟩ :=
    dedupeLoop_err_shape src oracle aIdx fs 0 ⟨[], [], [], 0⟩ fsL st e hloop
  refine ⟨aIdx, anchor, src, tl, hsel, hp, ⟨st.opIdx - 1, ho⟩, d, pre, hmem, ?_⟩
  rw [hops]
  exact hsh

theorem dedupe_live_error_aborts_witness :
    (dedupe [⟨[["d", "x"]], 1⟩, ⟨[["d", "y"]], 1⟩] false
        (fun k => if k = 0 then some 7 else none) =
      some ([⟨[["d", "x"]], 1⟩, ⟨[], 1⟩], [],
        [FsOp.hardLink ["d", "x"] ["d", tmpFileName],
         FsOp.removeFile ["d", tmpFileName]], some 7)) ∧
    (∃ aIdx anchor src tl,
      selectAnchor [⟨[["d", "x"]], 1⟩, ⟨[["d", "y"]], 1⟩] = some (aIdx, anchor) ∧
      anchor.paths = src :: tl ∧
      (∃ k, (fun k => if k = 0 then some 7 else none : Nat → Option IoErr) k =
        some 7) ∧
      ∃ d pre, d ∈ drainedFrom 0 aIdx [⟨[["d", "x"]], 1⟩, ⟨[["d", "y"]], 1⟩] ∧
        ([FsOp.hardLink ["d", "x"] ["d", tmpFileName],
          FsOp.removeFile ["d", tmpFileName]] =
            pre ++ [FsOp.hardLink src (tempPathOf d),
                    FsOp.removeFile (tempPathOf d)] ∨
         [FsOp.hardLink ["d", "x"] ["d", tmpFileName],
          FsOp.removeFile ["d", tmpFileName]] =
            pre ++ [FsOp.hardLink src (tempPathOf d),
                    FsOp.rename (tempPathOf d) d,
                    FsOp.removeFile (tempPathOf d)])) :=
  ⟨by decide,
    dedupe_live_error_aborts [⟨[["d", "x"]], 1⟩, ⟨[["d", "y"]], 1⟩]
      (fun k => if k = 0 then some 7 else none)
      [⟨[["d", "x"]], 1⟩, ⟨[], 1⟩] []
      [FsOp.hardLink ["d", "x"] ["d", tmpFileName],
       FsOp.removeFile ["d", tmpFileName]] 7 (by decide)⟩

/-- Claim C4: for every merge invocation with dry_run enabled, no filesystem
operation (hardlink creation, rename, or removal) is attempted, no error is
returned, the duplicate-found listener event fires exactly once per drained
duplicate path with arguments (duplicate path, source path), and the
resulting bucket — hence the list of paths appended to the anchor — is
exactly the one a live run over the same bucket produces on success. -/
theorem dedupe_dry_run_spec
    (fs : List FileSet) (oracle : Nat → Option IoErr) (fs' : List FileSet)
    (ev : List Event) (ops : List FsOp) (r : Option IoErr)
    (h : dedupe fs true oracle = some (fs', ev, ops, r)) :
    ops = [] ∧ r = none ∧
    (∃ aIdx anchor src tl, selectAnchor fs = some (aIdx, anchor) ∧
      anchor.paths = src :: tl ∧
      ev = (drainedFrom 0 aIdx fs).map (fun d => Event.duplicateFound d src)) ∧
    (∃ evL opsL, dedupe fs false okOracle = some (fs', evL, opsL, none)) := by
  obtain ⟨aIdx, anchor, src, tl, fsL, st, r', hsel, hp, hloop, hout⟩ :=
    dedupe_inv fs true oracle _ h
  rw [dedupeLoop_dry_eq] at hloop
  by_cases hmem : src ∈ drainedFrom 0 aIdx fs
  · rw [if_pos hmem] at hloop; simp at hloop
  · rw [if_neg hmem] at hloop
    simp only [Option.some.injEq, Prod.mk.injEq] at hloop
    obtain ⟨hfsL, hst, hr'⟩ := hloop
    simp only [Prod.mk.injEq] at hout
    obtain ⟨h1, h2, h3, h4⟩ := hout
    subst hfsL
    subst hst
    subst hr'
    have hlive : dedupe fs false okOracle =
        some ((emptyExcept 0 aIdx fs).set aIdx
            { anchor with paths := anchor.paths ++ drainedFrom 0 aIdx fs },
          (drainedFrom 0 aIdx fs).map (fun d => Event.hardlinked d src),
          ((drainedFrom 0 aIdx fs).map (fun d =>
            [FsOp.hardLink src (tempPathOf d),
             FsOp.rename (tempPathOf d) d])).flatten,
          none) := by
      rw [dedupe, hsel]
      simp only []
      rw [hp]
      simp only []
      rw [dedupeLoop_live_ok_eq, if_neg hmem]
      simp
    refine ⟨by simpa using h3, by simpa using h4, ⟨aIdx, anchor, src, tl, hsel, hp,
      by simpa using h2⟩,
      (drainedFrom 0 aIdx fs).map (fun d => Event.hardlinked d src),
      ((drainedFrom 0 aIdx fs).map (fun d =>
        [FsOp.hardLink src (tempPathOf d),
         FsOp.rename (tempPathOf d) d])).flatten, ?_⟩
    rw [h1]
    simpa using hlive

theorem dedupe_dry_run_spec_witness :
    (dedupe [⟨[["u"]], 1⟩, ⟨[["v"]], 1⟩] true okOracle =
      some ([⟨[["u"], ["v"]], 1⟩, ⟨[], 1⟩],
        [Event.duplicateFound ["v"] ["u"]], [], none)) ∧
    (([] : List FsOp) = [] ∧ (none : Option IoErr) = none ∧
      (∃ aIdx anchor src tl,
        selectAnchor [⟨[["u"]], 1⟩, ⟨[["v"]], 1⟩] = some (aIdx, anchor) ∧
        anchor.paths = src :: tl ∧
        [Event.duplicateFound ["v"] ["u"]] =
          (drainedFrom 0 aIdx [⟨[["u"]], 1⟩, ⟨[["v"]], 1⟩]).map
            (fun d => Event.duplicateFound d src)) ∧
      (∃ evL opsL, dedupe [⟨[["u"]], 1⟩, ⟨[["v"]], 1⟩] false okOracle =
        some ([⟨[["u"], ["v"]], 1⟩, ⟨[], 1⟩], evL, opsL, none))) :=
  ⟨by decide,
    dedupe_dry_run_spec [⟨[["u"]], 1⟩, ⟨[["v"]], 1⟩] okOracle
      [⟨[["u"], ["v"]], 1⟩, ⟨[], 1⟩] [Event.duplicateFound ["v"] ["u"]] [] none
      (by decide)⟩

/-! ## The scanner (`Scanner::add`, `scan_dir`, `flush`, `dupes`)

In Rust the two indices alias the same FileSets through `Rc<Mutex<…>>`; the
model uses an arena of FileSet records addressed by stable handles (indices
into `arena`), with `by_inode` and `by_content` mapping to handles. -/

inductive FType where
  | dir
  | symlink
  | file
  | other
deriving Repr, DecidableEq

/-- The metadata of one directory entry as consumed by `Scanner::add`.
`content` stands for the content fingerprint; modelled from the spec: the
fingerprint construction (`FileContent::new` with `Metadata::new`, living in
`file.rs`/`metadata.rs` which are not part of the sources) is an external,
deterministic, totally ordered key that two files share exactly when their
contents agree — here an opaque `Nat` supplied with the metadata. -/
structure FileMeta where
  ftype : FType
  size : Nat
  blksize : Nat
  nlink : Nat
  dev : Nat
  ino : Nat
  content : Nat
deriving Repr, DecidableEq

structure Scanner where
  arena : List FileSet
  byInode : List ((Nat × Nat) × Nat)
  byContent : List (Nat × List Nat)
  toScan : List (Nat × Path)
  stats : Stats
  settings : Settings
deriving Repr, DecidableEq

/-- `Scanner::new()`. -/
def Scanner.new : Scanner :=
  ⟨[], [], [], [], ⟨0, 0, 0, 0⟩, ⟨true, false⟩⟩

/-- `!(ino >> 8)` on `u64`: the traversal-queue ordering key computed in
`Scanner::add` for directories. -/
def orderKey (ino : Nat) : Nat := UMAX - (ino >>> 8)

/-- Appending a handle to the bucket of fingerprint `c`
(`BTreeEntry::Occupied` followed by `filesets.push`). -/
def bumpContent (l : List (Nat × List Nat)) (c h : Nat) : List (Nat × List Nat) :=
  l.map (fun e => if e.1 = c then (e.1, e.2 ++ [h]) else e)

/-- Writing the updated bucket FileSets back into the arena (in Rust this
mutation happens in place through the shared `Rc<Mutex<_>>` handles). -/
def scatter (arena : List FileSet) (hs : List Nat) (fsets : List FileSet) :
    List FileSet :=
  (hs.zip fsets).foldl (fun ar e => ar.set e.1 e.2) arena

/-- `Scanner::add`.  The oracle feeds the filesystem calls of a `dedupe`
triggered by this addition; `none` models a panic inside `dedupe`. -/
def Scanner.add (sc : Scanner) (path : Path) (m : FileMeta)
    (oracle : Nat → Option IoErr) :
    Option (Scanner × List Event × List FsOp × Option IoErr) :=
  let ev0 := [Event.fileScanned path sc.stats]
  match m.ftype with
  | FType.dir =>
      some ({ sc with toScan := sc.toScan ++ [(orderKey m.ino, path)] },
            ev0, [], none)
  | FType.symlink =>
      some ({ sc with stats.skipped := sc.stats.skipped + 1 }, ev0, [], none)
  | FType.other =>
      some ({ sc with stats.skipped := sc.stats.skipped + 1 }, ev0, [], none)
  | FType.file =>
    if m.size = 0 ∨ (sc.settings.ignore_small ∧ m.size < m.blksize) then
      some ({ sc with stats.skipped := sc.stats.skipped + 1 }, ev0, [], none)
    else
      let sc1 := { sc with stats.added := sc.stats.added + 1 }
      match List.lookup (m.dev, m.ino) sc1.byInode with
      | some h =>
          some ({ sc1 with
                  stats.hardlinks := sc1.stats.hardlinks + 1,
                  arena := sc1.arena.set h
                    ((sc1.arena.getD h ⟨[], 0⟩).push path m.nlink) },
                ev0, [], none)
      | none =>
        let h := sc1.arena.length
        let sc2 := { sc1 with
                     arena := sc1.arena ++ [FileSet.new path m.nlink],
                     byInode := sc1.byInode ++ [((m.dev, m.ino), h)] }
        match List.lookup m.content sc2.byContent with
        | none =>
            some ({ sc2 with byContent := sc2.byContent ++ [(m.content, [h])] },
                  ev0, [], none)
        | some bucket =>
          let bucket' := bucket ++ [h]
          let sc3 := { sc2 with
                       stats.dupes := sc2.stats.dupes + 1,
                       byContent := bumpContent sc2.byContent m.content h }
          match dedupe (bucket'.map (fun hh => sc3.arena.getD hh ⟨[], 0⟩))
              sc3.settings.dry_run oracle with
          | none => none
          | some (fsets', ev, ops, r) =>
              some ({ sc3 with arena := scatter sc3.arena bucket' fsets' },
                    ev0 ++ ev, ops, r)

/-- One directory listing as fed to `scan_dir`: the outer `Except` is the
`fs::read_dir` result; each entry is `none` when the `DirEntry` itself was
an error (discarded by `filter_map(|p| p.ok())`), otherwise the entry's path
together with the result of `entry.metadata()`. -/
abbrev DirListing :=
  Except IoErr (List (Option (Path × Except IoErr FileMeta)))

/-- The entry loop of `scan_dir`: a `none` entry is skipped silently; a
failing `entry.metadata()` is propagated by the `?` operator; an error
returned by `add` is printed and discarded (`unwrap_or_else`). -/
def scanEntries (oracle : Nat → Nat → Option IoErr) :
    List (Option (Path × Except IoErr FileMeta)) → Nat → Scanner →
    List Event → List FsOp →
    Option (Scanner × List Event × List FsOp × Option IoErr)
  | [], _, sc, ev, ops => some (sc, ev, ops, none)
  | none :: rest, i, sc, ev, ops => scanEntries oracle rest (i + 1) sc ev ops
  | some (_, Except.error e) :: _, _, sc, ev, ops => some (sc, ev, ops, some e)
  | some (p, Except.ok m) :: rest, i, sc, ev, ops =>
    match sc.add p m (oracle i) with
    | none => none
    | some (sc', ev', ops', _) =>
        scanEntries oracle rest (i + 1) sc' (ev ++ ev') (ops ++ ops')

/-- `Scanner::scan_dir`. -/
def Scanner.scanDir (sc : Scanner) (listing : DirListing)
    (oracle : Nat → Nat → Option IoErr) :
    Option (Scanner × List Event × List FsOp × Option IoErr) :=
  match listing with
  | Except.error e => some (sc, [], [], some e)
  | Except.ok entries => scanEntries oracle entries 0 sc [] []

/-- Componentwise comparison of paths, mirroring the derived `Ord` on
`PathBuf` for the purposes of the queue (total, lexicographic). -/
def pathLeB : List String → List String → Bool
  | [], _ => true
  | _ :: _, [] => false
  | a :: as, b :: bs => if a = b then pathLeB as bs else decide (a < b)

/-- Lexicographic "less or equal" on queue entries: the derived `Ord` on
`(u64, PathBuf)`. -/
def entryLeB (a b : Nat × Path) : Bool :=
  if a.1 = b.1 then pathLeB a.2 b.2 else decide (a.1 < b.1)

/-- `BinaryHeap::pop`: remove a maximal element (Rust's heap is a
max-heap). -/
def popMax : List (Nat × Path) → Option ((Nat × Path) × List (Nat × Path))
  | [] => none
  | x :: xs =>
    match popMax xs with
    | none => some (x, [])
    | some (m, rest) =>
        if entryLeB x m then some (m, x :: rest) else some (x, xs)

def drainHeapGo : Nat → List (Nat × Path) → List (Nat × Path)
  | 0, _ => []
  | n + 1, q =>
    match popMax q with
    | none => []
    | some (x, rest) => x :: drainHeapGo n rest

/-- The order in which `flush` visits the queued directories: repeatedly pop
the heap's maximum element until the queue is empty. -/
def drainHeap (q : List (Nat × Path)) : List (Nat × Path) :=
  drainHeapGo q.length q

/-- `Scanner::dupes`: one cloned FileSet per inode-index entry. -/
def Scanner.dupes (sc : Scanner) : List FileSet :=
  sc.byInode.map (fun e => sc.arena.getD e.2 ⟨[], 0⟩)

/-- For a regular file that passes the size filter, `add` increments `added`
by one and leaves `skipped` unchanged, in every non-panicking outcome. -/
theorem add_stats_file (sc : Scanner) (path : Path) (m : FileMeta)
    (oracle : Nat → Option IoErr) (sc' : Scanner) (ev : List Event)
    (ops : List FsOp) (r : Option IoErr)
    (hft : m.ftype = FType.file)
    (hsz : ¬ (m.size = 0 ∨ (sc.settings.ignore_small ∧ m.size < m.blksize)))
    (h : Scanner.add sc path m oracle = some (sc', ev, ops, r)) :
    sc'.stats.skipped = sc.stats.skipped ∧
      sc'.stats.added = sc.stats.added + 1 := by
  simp only [Scanner.add, hft] at h
  rw [if_neg hsz] at h
  split at h
  · simp only [Option.some.injEq, Prod.mk.injEq] at h
    obtain ⟨rfl, -⟩ := h
    exact ⟨rfl, rfl⟩
  · split at h
    · simp only [Option.some.injEq, Prod.mk.injEq] at h
      obtain ⟨rfl, -⟩ := h
      exact ⟨rfl, rfl⟩
    · split at h
      · simp at h
      · simp only [Option.some.injEq, Prod.mk.injEq] at h
        obtain ⟨rfl, -⟩ := h
        exact ⟨rfl, rfl⟩

/-- Claim C5: for every file added whose (device, inode) pair is already
present in the inode index, the `hardlinks` counter is incremented by
exactly one, the path is appended to the existing FileSet for that pair,
and classification stops there: no merge runs (no events beyond
file-scanned, no filesystem operations), the content index and the inode
index are unchanged, the `dupes` counter is unchanged, and the result does
not depend on the content fingerprint at all. -/
theorem add_existing_inode_spec
    (sc : Scanner) (path : Path) (m : FileMeta) (oracle : Nat → Option IoErr)
    (h : Nat)
    (hft : m.ftype = FType.file)
    (hsz : ¬ (m.size = 0 ∨ (sc.settings.ignore_small ∧ m.size < m.blksize)))
    (hino : List.lookup (m.dev, m.ino) sc.byInode = some h) :
    Scanner.add sc path m oracle =
      some ({ sc with
              stats := { sc.stats with
                         added := sc.stats.added + 1
                         hardlinks := sc.stats.hardlinks + 1 },
              arena := sc.arena.set h
                ((sc.arena.getD h ⟨[], 0⟩).push path m.nlink) },
            [Event.fileScanned path sc.stats], [], none) ∧
    (∀ c, Scanner.add sc path { m with content := c } oracle =
      Scanner.add sc path m oracle) := by
  constructor
  · simp only [Scanner.add, hft]
    rw [if_neg hsz]
    simp [hino]
  · intro c
    simp only [Scanner.add, hft]
    rw [if_neg hsz, if_neg hsz]
    simp [hino]

def c5sc : Scanner :=
  ⟨[⟨[["x"]], 2⟩], [((1, 2), 0)], [(9, [0])], [], ⟨1, 0, 0, 0⟩, ⟨true, false⟩⟩

def c5m : FileMeta := ⟨FType.file, 4096, 4096, 2, 1, 2, 9⟩

theorem add_existing_inode_spec_witness :
    (c5m.ftype = FType.file) ∧
    (¬ (c5m.size = 0 ∨ (c5sc.settings.ignore_small ∧ c5m.size < c5m.blksize))) ∧
    (List.lookup (c5m.dev, c5m.ino) c5sc.byInode = some 0) ∧
    (Scanner.add c5sc ["y"] c5m okOracle =
      some (⟨[⟨[["x"], ["y"]], 2⟩], [((1, 2), 0)], [(9, [0])], [],
             ⟨2, 0, 0, 1⟩, ⟨true, false⟩⟩,
        [Event.fileScanned ["y"] ⟨1, 0, 0, 0⟩], [], none) ∧
     ∀ c, Scanner.add c5sc ["y"] { c5m with content := c } okOracle =
       Scanner.add c5sc ["y"] c5m okOracle) :=
  ⟨by decide, by decide, by decide,
    add_existing_inode_spec c5sc ["y"] c5m okOracle 0
      (by decide) (by decide) (by decide)⟩

/-- Claim C6: for every regular file added: a zero-size file is skipped
regardless of settings; with ignore_small enabled a file strictly smaller
than the filesystem block size is skipped; a file whose size equals the
block size exactly is never skipped for smallness (it is counted as added);
and with ignore_small disabled only the zero-size case is skipped. -/
theorem add_size_filter_spec
    (sc : Scanner) (path : Path) (m : FileMeta) (oracle : Nat → Option IoErr)
    (hft : m.ftype = FType.file) :
    (m.size = 0 →
      Scanner.add sc path m oracle =
        some ({ sc with stats.skipped := sc.stats.skipped + 1 },
          [Event.fileScanned path sc.stats], [], none)) ∧
    (sc.settings.ignore_small = true → m.size < m.blksize →
      Scanner.add sc path m oracle =
        some ({ sc with stats.skipped := sc.stats.skipped + 1 },
          [Event.fileScanned path sc.stats], [], none)) ∧
    (m.size = m.blksize → 0 < m.blksize →
      Scanner.add sc path m oracle = none ∨
      ∃ sc' ev ops r, Scanner.add sc path m oracle = some (sc', ev, ops, r) ∧
        sc'.stats.skipped = sc.stats.skipped ∧
        sc'.stats.added = sc.stats.added + 1) ∧
    (sc.settings.ignore_small = false → m.size ≠ 0 →
      Scanner.add sc path m oracle = none ∨
      ∃ sc' ev ops r, Scanner.add sc path m oracle = some (sc', ev, ops, r) ∧
        sc'.stats.skipped = sc.stats.skipped ∧
        sc'.stats.added = sc.stats.added + 1) := by
  refine ⟨?_, ?_, ?_, ?_⟩
  · intro h0
    simp [Scanner.add, hft, h0]
  · intro his hlt
    simp [Scanner.add, hft, his, hlt]
  · intro heq hpos
    have hsz : ¬ (m.size = 0 ∨ (sc.settings.ignore_small ∧ m.size < m.blksize)) := by
      intro hc
      rcases hc with hc | ⟨-, hc⟩
      · omega
      · omega
    cases hout : Scanner.add sc path m oracle with
    | none => exact Or.inl rfl
    | some out =>
      obtain ⟨sc', ev, ops, r⟩ := out
      obtain ⟨h1, h2⟩ := add_stats_file sc path m oracle sc' ev ops r hft hsz hout
      exact Or.inr ⟨sc', ev, ops, r, rfl, h1, h2⟩
  · intro his hne0
    have hsz : ¬ (m.size = 0 ∨ (sc.settings.ignore_small ∧ m.size < m.blksize)) := by
      intro hc
      rcases hc with hc | ⟨hc, -⟩
      · exact hne0 hc
      · rw [his] at hc
        simp at hc
    cases hout : Scanner.add sc path m oracle with
    | none => exact Or.inl rfl
    | some out =>
      obtain ⟨sc', ev, ops, r⟩ := out
      obtain ⟨h1, h2⟩ := add_stats_file sc path m oracle sc' ev ops r hft hsz hout
      exact Or.inr ⟨sc', ev, ops, r, rfl, h1, h2⟩

def c6m : FileMeta := ⟨FType.file, 0, 4096, 1, 1, 1, 0⟩

theorem add_size_filter_spec_witness :
    (c6m.ftype = FType.file) ∧
    ((c6m.size = 0 →
      Scanner.add Scanner.new ["z"] c6m okOracle =
        some ({ Scanner.new with
                stats.skipped := Scanner.new.stats.skipped + 1 },
          [Event.fileScanned ["z"] Scanner.new.stats], [], none)) ∧
     (Scanner.new.settings.ignore_small = true → c6m.size < c6m.blksize →
      Scanner.add Scanner.new ["z"] c6m okOracle =
        some ({ Scanner.new with
                stats.skipped := Scanner.new.stats.skipped + 1 },
          [Event.fileScanned ["z"] Scanner.new.stats], [], none)) ∧
     (c6m.size = c6m.blksize → 0 < c6m.blksize →
      Scanner.add Scanner.new ["z"] c6m okOracle = none ∨
      ∃ sc' ev ops r,
        Scanner.add Scanner.new ["z"] c6m okOracle = some (sc', ev, ops, r) ∧
        sc'.stats.skipped = Scanner.new.stats.skipped ∧
        sc'.stats.added = Scanner.new.stats.added + 1) ∧
     (Scanner.new.settings.ignore_small = false → c6m.size ≠ 0 →
      Scanner.add Scanner.new ["z"] c6m okOracle = none ∨
      ∃ sc' ev ops r,
        Scanner.add Scanner.new ["z"] c6m okOracle = some (sc', ev, ops, r) ∧
        sc'.stats.skipped = Scanner.new.stats.skipped ∧
        sc'.stats.added = Scanner.new.stats.added + 1)) :=
  ⟨by decide, add_size_filter_spec Scanner.new ["z"] c6m okOracle (by decide)⟩

/-- Per-call counter dichotomy of `Scanner::add`: a directory touches
neither `added` nor `skipped`; any other entry type bumps exactly one of
them by exactly one. -/
theorem add_stats_dichotomy (sc : Scanner) (path : Path) (m : FileMeta)
    (oracle : Nat → Option IoErr) (sc' : Scanner) (ev : List Event)
    (ops : List FsOp) (r : Option IoErr)
    (h : Scanner.add sc path m oracle = some (sc', ev, ops, r)) :
    (m.ftype = FType.dir →
      sc'.stats.added = sc.stats.added ∧
        sc'.stats.skipped = sc.stats.skipped) ∧
    (m.ftype ≠ FType.dir →
      (sc'.stats.added = sc.stats.added + 1 ∧
        sc'.stats.skipped = sc.stats.skipped) ∨
      (sc'.stats.added = sc.stats.added ∧
        sc'.stats.skipped = sc.stats.skipped + 1)) := by
  cases hft : m.ftype with
  | dir =>
    simp only [Scanner.add, hft] at h
    simp only [Option.some.injEq, Prod.mk.injEq] at h
    obtain ⟨rfl, -⟩ := h
    exact ⟨fun _ => ⟨rfl, rfl⟩, fun hne => absurd rfl hne⟩
  | symlink =>
    simp only [Scanner.add, hft] at h
    simp only [Option.some.injEq, Prod.mk.injEq] at h
    obtain ⟨rfl, -⟩ := h
    refine ⟨fun hd => ?_, fun _ => Or.inr ⟨rfl, rfl⟩⟩
    simp at hd
  | other =>
    simp only [Scanner.add, hft] at h
    simp only [Option.some.injEq, Prod.mk.injEq] at h
    obtain ⟨rfl, -⟩ := h
    refine ⟨fun hd => ?_, fun _ => Or.inr ⟨rfl, rfl⟩⟩
    simp at hd
  | file =>
    by_cases hsz : m.size = 0 ∨ (sc.settings.ignore_small ∧ m.size < m.blksize)
    · simp only [Scanner.add, hft] at h
      rw [if_pos hsz] at h
      simp only [Option.some.injEq, Prod.mk.injEq] at h
      obtain ⟨rfl, -⟩ := h
      refine ⟨fun hd => ?_, fun _ => Or.inr ⟨rfl, rfl⟩⟩
      simp at hd
    · obtain ⟨h1, h2⟩ := add_stats_file sc path m oracle sc' ev ops r hft hsz h
      refine ⟨fun hd => ?_, fun _ => Or.inl ⟨h2, h1⟩⟩
      simp at hd

/-- Number of non-directory entries in one directory listing (entry-level
errors excluded, as `filter_map` drops them before classification). -/
def countNonDir : List (Option (Path × Except IoErr FileMeta)) → Nat
  | [] => 0
  | none :: rest => countNonDir rest
  | some (_, Except.error _) :: rest => countNonDir rest
  | some (_, Except.ok m) :: rest =>
      (if m.ftype = FType.dir then 0 else 1) + countNonDir rest

theorem scanEntries_counts (oracle : Nat → Nat → Option IoErr) :
    ∀ (entries : List (Option (Path × Except IoErr FileMeta))) (i : Nat)
      (sc : Scanner) (ev0 : List Event) (ops0 : List FsOp) (sc' : Scanner)
      (ev : List Event) (ops : List FsOp) (r : Option IoErr),
      scanEntries oracle entries i sc ev0 ops0 = some (sc', ev, ops, r) →
      (∀ p me, some (p, me) ∈ entries → ∃ m, me = Except.ok m) →
      sc'.stats.added + sc'.stats.skipped =
        sc.stats.added + sc.stats.skipped + countNonDir entries := by
  intro entries
  induction entries with
  | nil =>
    intro i sc ev0 ops0 sc' ev ops r h hok
    simp only [scanEntries, Option.some.injEq, Prod.mk.injEq] at h
    obtain ⟨rfl, -⟩ := h
    simp [countNonDir]
  | cons x rest ih =>
    intro i sc ev0 ops0 sc' ev ops r h hok
    cases x with
    | none =>
      rw [scanEntries] at h
      have := ih (i + 1) sc ev0 ops0 sc' ev ops r h
        (fun p me hmem => hok p me (List.mem_cons_of_mem _ hmem))
      simpa [countNonDir] using this
    | some pe =>
      obtain ⟨p, me⟩ := pe
      cases me with
      | error e =>
        obtain ⟨m, hm⟩ := hok p (Except.error e) (List.mem_cons_self _ _)
        simp at hm
      | ok m =>
        rw [scanEntries] at h
        cases hadd : Scanner.add sc p m (oracle i) with
        | none => rw [hadd] at h; simp at h
        | some out =>
          obtain ⟨sc₁, ev₁, ops₁, r₁⟩ := out
          rw [hadd] at h
          simp only at h
          have hrec := ih (i + 1) sc₁ (ev0 ++ ev₁) (ops0 ++ ops₁) sc' ev ops r h
            (fun p' me' hmem => hok p' me' (List.mem_cons_of_mem _ hmem))
          obtain ⟨hdir, hnondir⟩ :=
            add_stats_dichotomy sc p m (oracle i) sc₁ ev₁ ops₁ r₁ hadd
          by_cases hd : m.ftype = FType.dir
          · obtain ⟨ha, hs⟩ := hdir hd
            simp only [countNonDir, hd, if_pos]
            omega
          · rcases hnondir hd with ⟨ha, hs⟩ | ⟨ha, hs⟩ <;>
            · simp only [countNonDir, if_neg hd]
              omega

/-- Claim C9: every successful call of the classification step on a
non-directory entry increments exactly one of `added` and `skipped` by
exactly one, and a call on a directory increments neither; hence over a
directory scan whose metadata reads all succeed, added + skipped grows by
exactly the number of non-directory entries visited. -/
theorem add_counts_exactly_one :
    (∀ (sc : Scanner) (path : Path) (m : FileMeta)
      (oracle : Nat → Option IoErr) (sc' : Scanner) (ev : List Event)
      (ops : List FsOp) (r : Option IoErr),
      Scanner.add sc path m oracle = some (sc', ev, ops, r) →
      (m.ftype = FType.dir →
        sc'.stats.added = sc.stats.added ∧
          sc'.stats.skipped = sc.stats.skipped) ∧
      (m.ftype ≠ FType.dir →
        (sc'.stats.added = sc.stats.added + 1 ∧
          sc'.stats.skipped = sc.stats.skipped) ∨
        (sc'.stats.added = sc.stats.added ∧
          sc'.stats.skipped = sc.stats.skipped + 1))) ∧
    (∀ (oracle : Nat → Nat → Option IoErr)
      (entries : List (Option (Path × Except IoErr FileMeta)))
      (sc sc' : Scanner) (ev : List Event) (ops : List FsOp)
      (r : Option IoErr),
      Scanner.scanDir sc (Except.ok entries) oracle = some (sc', ev, ops, r) →
      (∀ p me, some (p, me) ∈ entries → ∃ m, me = Except.ok m) →
      sc'.stats.added + sc'.stats.skipped =
        sc.stats.added + sc.stats.skipped + countNonDir entries) :=
  ⟨fun sc path m oracle sc' ev ops r h =>
      add_stats_dichotomy sc path m oracle sc' ev ops r h,
   fun oracle entries sc sc' ev ops r h hok =>
      scanEntries_counts oracle entries 0 sc [] [] sc' ev ops r h hok⟩

def c9m : FileMeta := ⟨FType.symlink, 0, 0, 0, 0, 0, 0⟩

theorem add_counts_exactly_one_witness :
    (Scanner.add Scanner.new ["s"] c9m okOracle =
      some ({ Scanner.new with stats.skipped := 1 },
        [Event.fileScanned ["s"] ⟨0, 0, 0, 0⟩], [], none)) ∧
    ((c9m.ftype = FType.dir →
      ({ Scanner.new with stats.skipped := 1 } : Scanner).stats.added =
          Scanner.new.stats.added ∧
        ({ Scanner.new with stats.skipped := 1 } : Scanner).stats.skipped =
          Scanner.new.stats.skipped) ∧
     (c9m.ftype ≠ FType.dir →
      (({ Scanner.new with stats.skipped := 1 } : Scanner).stats.added =
          Scanner.new.stats.added + 1 ∧
        ({ Scanner.new with stats.skipped := 1 } : Scanner).stats.skipped =
          Scanner.new.stats.skipped) ∨
      (({ Scanner.new with stats.skipped := 1 } : Scanner).stats.added =
          Scanner.new.stats.added ∧
        ({ Scanner.new with stats.skipped := 1 } : Scanner).stats.skipped =
          Scanner.new.stats.skipped + 1))) ∧
    (Scanner.scanDir Scanner.new (Except.ok [some (["s"], Except.ok c9m)])
        (fun _ _ => none) =
      some ({ Scanner.new with stats.skipped := 1 },
        [Event.fileScanned ["s"] ⟨0, 0, 0, 0⟩], [], none)) ∧
    (({ Scanner.new with stats.skipped := 1 } : Scanner).stats.added +
        ({ Scanner.new with stats.skipped := 1 } : Scanner).stats.skipped =
      Scanner.new.stats.added + Scanner.new.stats.skipped +
        countNonDir [some (["s"], Except.ok c9m)]) :=
  ⟨by decide,
   add_counts_exactly_one.1 Scanner.new ["s"] c9m okOracle
     { Scanner.new with stats.skipped := 1 }
     [Event.fileScanned ["s"] ⟨0, 0, 0, 0⟩] [] none (by decide),
   by decide,
   add_counts_exactly_one.2 (fun _ _ => none) [some (["s"], Except.ok c9m)]
     Scanner.new { Scanner.new with stats.skipped := 1 }
     [Event.fileScanned ["s"] ⟨0, 0, 0, 0⟩] [] none (by decide)
     (by
       intro p me hmem
       simp only [List.mem_singleton, Option.some.injEq, Prod.mk.injEq] at hmem
       exact ⟨c9m, hmem.2⟩)⟩

def c7m : FileMeta := ⟨FType.symlink, 0, 0, 0, 0, 0, 0⟩

/-- Claim C7 (code bug, evaluated): `scan_dir` writes
`self.add(path, entry.metadata()?)` — the `?` on `entry.metadata()`
propagates a metadata failure out of `scan_dir`, aborting the directory
scan, contrary to the claim (and to the function's own comment that errors
are ignored here).  First conjunct: a listing whose second entry has a
failing metadata call makes `scan_dir` return that error; the first entry
was classified but the third is never visited (no file-scanned event for
it).  Second conjunct: a failing `read_dir` is propagated.  Third conjunct:
an entry whose `DirEntry` itself errored is silently skipped and the scan
continues.  Fourth conjunct: an error returned by `add` (here a failing
hardlink inside the triggered merge) is discarded and the scan continues
with the remaining entries. -/
theorem scanDir_metadata_error_aborts :
    (Scanner.scanDir Scanner.new
      (Except.ok [some (["p1"], Except.ok c7m),
                  some (["p2"], Except.error 7),
                  some (["p3"], Except.ok c7m)]) (fun _ _ => none) =
      some ({ Scanner.new with stats.skipped := 1 },
        [Event.fileScanned ["p1"] ⟨0, 0, 0, 0⟩], [], some 7)) ∧
    (Scanner.scanDir Scanner.new (Except.error 5) (fun _ _ => none) =
      some (Scanner.new, [], [], some 5)) ∧
    (Scanner.scanDir Scanner.new
      (Except.ok [none, some (["p4"], Except.ok c7m)]) (fun _ _ => none) =
      some ({ Scanner.new with stats.skipped := 1 },
        [Event.fileScanned ["p4"] ⟨0, 0, 0, 0⟩], [], none)) ∧
    (Scanner.scanDir
      ⟨[⟨[["q1"]], 1⟩], [((1, 1), 0)], [(5, [0])], [], ⟨1, 0, 0, 0⟩,
        ⟨true, false⟩⟩
      (Except.ok [some (["q2"], Except.ok ⟨FType.file, 4096, 4096, 1, 1, 2, 5⟩),
                  some (["q3"], Except.ok c7m)])
      (fun _ _ => some 9) =
      some (⟨[⟨[["q1"]], 1⟩, ⟨[], 1⟩], [((1, 1), 0), ((1, 2), 1)],
              [(5, [0, 1])], [], ⟨2, 1, 1, 0⟩, ⟨true, false⟩⟩,
        [Event.fileScanned ["q2"] ⟨1, 0, 0, 0⟩,
         Event.fileScanned ["q3"] ⟨2, 0, 1, 0⟩],
        [FsOp.hardLink ["q1"] [tmpFileName], FsOp.removeFile [tmpFileName]],
        none)) :=
  ⟨by decide, by decide, by decide, by decide⟩

/-- Claim C8 (code bug, evaluated): the queue key is `!(ino >> 8)` and
`BinaryHeap::pop` returns the *maximum*, so the directory with the
*smallest* right-shifted inode number is popped first — the opposite of the
claimed descending order (and of the code comment "scan from the highest
first").  With truncated inodes 1 (ino 256) and 5 (ino 1280), the heap pops
the ino-256 directory first even though its truncated inode is smaller;
the last conjunct shows `add` enqueues directories with exactly this key. -/
theorem flush_pops_smallest_truncated_ino_first :
    (drainHeap [(orderKey 256, ["small"]), (orderKey 1280, ["big"])] =
      [(orderKey 256, ["small"]), (orderKey 1280, ["big"])]) ∧
    (256 >>> 8 < 1280 >>> 8) ∧
    (orderKey 1280 < orderKey 256) ∧
    (Scanner.add Scanner.new ["small"] ⟨FType.dir, 0, 0, 0, 0, 256, 0⟩
        okOracle =
      some ({ Scanner.new with toScan := [(orderKey 256, ["small"])] },
        [Event.fileScanned ["small"] ⟨0, 0, 0, 0⟩], [], none)) :=
  ⟨by decide, by decide, by decide, by decide⟩

/-- Claim C10: `dupes()` returns exactly one FileSet (a clone) per entry of
the inode index — including FileSets whose path lists were emptied by an
earlier merge, since nothing conditions on the path list — and inode-index
entries are never removed by `add` (hence exist for every (device, inode)
pair ever registered); `dupes` itself is a pure read of the Scanner. -/
theorem dupes_snapshot_spec :
    (∀ sc : Scanner, (Scanner.dupes sc).length = sc.byInode.length) ∧
    (∀ (sc : Scanner) (e : (Nat × Nat) × Nat), e ∈ sc.byInode →
      sc.arena.getD e.2 ⟨[], 0⟩ ∈ Scanner.dupes sc) ∧
    (∀ (sc : Scanner) (path : Path) (m : FileMeta)
      (oracle : Nat → Option IoErr) (sc' : Scanner) (ev : List Event)
      (ops : List FsOp) (r : Option IoErr),
      Scanner.add sc path m oracle = some (sc', ev, ops, r) →
      ∀ e ∈ sc.byInode, e ∈ sc'.byInode) := by
  refine ⟨?_, ?_, ?_⟩
  · intro sc
    simp [Scanner.dupes]
  · intro sc e he
    exact List.mem_map_of_mem _ he
  · intro sc path m oracle sc' ev ops r h e he
    cases hft : m.ftype with
    | dir =>
      simp only [Scanner.add, hft] at h
      simp only [Option.some.injEq, Prod.mk.injEq] at h
      obtain ⟨rfl, -⟩ := h
      simpa using he
    | symlink =>
      simp only [Scanner.add, hft] at h
      simp only [Option.some.injEq, Prod.mk.injEq] at h
      obtain ⟨rfl, -⟩ := h
      simpa using he
    | other =>
      simp only [Scanner.add, hft] at h
      simp only [Option.some.injEq, Prod.mk.injEq] at h
      obtain ⟨rfl, -⟩ := h
      simpa using he
    | file =>
      simp only [Scanner.add, hft] at h
      by_cases hsz : m.size = 0 ∨ (sc.settings.ignore_small ∧ m.size < m.blksize)
      · rw [if_pos hsz] at h
        simp only [Option.some.injEq, Prod.mk.injEq] at h
        obtain ⟨rfl, -⟩ := h
        simpa using he
      · rw [if_neg hsz] at h
        split at h
        · simp only [Option.some.injEq, Prod.mk.injEq] at h
          obtain ⟨rfl, -⟩ := h
          simpa using he
        · split at h
          · simp only [Option.some.injEq, Prod.mk.injEq] at h
            obtain ⟨rfl, -⟩ := h
            exact List.mem_append_left _ he
          · split at h
            · simp at h
            · simp only [Option.some.injEq, Prod.mk.injEq] at h
              obtain ⟨rfl, -⟩ := h
              exact List.mem_append_left _ he

def c10sc : Scanner :=
  ⟨[⟨[], 3⟩], [((2, 7), 0)], [], [], ⟨0, 0, 0, 0⟩, ⟨true, false⟩⟩

theorem dupes_snapshot_spec_witness :
    ((Scanner.dupes c10sc).length = c10sc.byInode.length) ∧
    (c10sc.arena.getD (((2, 7), 0) : (Nat × Nat) × Nat).2 ⟨[], 0⟩ ∈
      Scanner.dupes c10sc) ∧
    ((((2, 7), 0) : (Nat × Nat) × Nat) ∈
      ({ c10sc with toScan := [(orderKey 3, ["n"])] } : Scanner).byInode) :=
  ⟨dupes_snapshot_spec.1 c10sc,
   dupes_snapshot_spec.2.1 c10sc ((2, 7), 0) (by decide),
   dupes_snapshot_spec.2.2 c10sc ["n"] ⟨FType.dir, 0, 0, 0, 0, 3, 0⟩ okOracle
     { c10sc with toScan := [(orderKey 3, ["n"])] }
     [Event.fileScanned ["n"] ⟨0, 0, 0, 0⟩] [] none (by decide)
     ((2, 7), 0) (by decide)⟩
